import Mathlib

/-!
Verification of the streaming-response assembler of the demon-ai repository.

The embedding models, over `List Char`:

* the buffered SSE assembler of `src/components/ChatInterface.tsx`
  (`sendMessage`, lines 62-111), whose byte-identical copy also appears in
  `src/components/AvatarCustomizer.tsx` lines 699-739: a text buffer, a
  line-extraction loop, a `data: ` framing with a `[DONE]` sentinel, JSON
  payloads whose `choices[0].delta.content` field is appended to the
  assembled message, and a pushback-on-parse-failure recovery path;
* the naive per-chunk parser of `src/components/AvatarCustomizer.tsx`
  lines 369-399, which splits each chunk on newlines independently;
* the surrounding orchestration of `sendMessage` (fetch, placeholder
  message, catch handler, database insert, lines 24-128).

JavaScript built-ins are modelled as follows. `JSON.parse` is `jsonParse`,
a recursive-descent parser covering objects, arrays, strings with the
common escapes, integer numerals, `true`, `false` and `null`, with
surrounding whitespace ignored (fractional numerals, `\u` escapes and
duplicate-key overwriting inside a single object are outside the model;
no claim exercises them).  Property access, `?.` chains, JS truthiness and
JS string conversion are `getProp`, `optChain`, `truthy` and `jsToStr`.
-/

/-- Characters written via codes so that brace characters never appear in
string literals. -/
def lbr : Char := Char.ofNat 123

def rbr : Char := Char.ofNat 125

/-- Whitespace test used to model `String.prototype.trim` and the JSON
whitespace rule (space, tab, newline, carriage return). -/
def isWsChar (c : Char) : Bool := (c == ' ') || (c == '\t') || (c == '\n') || (c == '\r')

/-- Model of JavaScript `s.trim()` on a character list. -/
def trimList (s : List Char) : List Char := (s.dropWhile isWsChar).rdropWhile isWsChar

/-- Decidable test that `p` is a leading segment of `s`, modelling
JavaScript `s.startsWith(p)`. -/
def beginsWith : List Char → List Char → Bool
  | [], _ => true
  | _ :: _, [] => false
  | p :: ps, c :: cs => (p == c) && beginsWith ps cs

/-- Model of the `line.endsWith("\r")` strip at ChatInterface.tsx line 82. -/
def stripCR (l : List Char) : List Char :=
  if l.getLast? = some '\r' then l.dropLast else l

/-- JSON values as produced by the modelled `JSON.parse`; numbers are
restricted to integers. -/
inductive Json where
  | null
  | bool (b : Bool)
  | num (n : Int)
  | str (s : List Char)
  | arr (elems : List Json)
  | obj (fields : List (List Char × Json))
deriving Repr

/-- Digit run to a natural number. -/
def digitsToNat : List Char → Nat → Nat
  | [], acc => acc
  | c :: cs, acc => digitsToNat cs (acc * 10 + (c.toNat - 48))

/-- Integer numeral parser (a JSON number restricted to integers). -/
def pNum (s : List Char) : Option (Json × List Char) :=
  match s with
  | '-' :: rest =>
    let ds := rest.takeWhile Char.isDigit
    if ds = [] then none
    else some (Json.num (-(digitsToNat ds 0 : Int)), rest.drop ds.length)
  | _ =>
    let ds := s.takeWhile Char.isDigit
    if ds = [] then none
    else some (Json.num (digitsToNat ds 0 : Int), s.drop ds.length)

/-- String-body parser: input starts just after the opening quote; returns
the decoded content and the text after the closing quote. -/
def pStrBody : List Char → Option (List Char × List Char)
  | [] => none
  | c :: cs =>
    if c = '\"' then some ([], cs)
    else if c = '\\' then
      match cs with
      | [] => none
      | e :: cs2 =>
        let esc : Option Char :=
          if e = '\"' then some '\"'
          else if e = '\\' then some '\\'
          else if e = '/' then some '/'
          else if e = 'n' then some '\n'
          else if e = 't' then some '\t'
          else if e = 'r' then some '\r'
          else none
        match esc with
        | none => none
        | some ec =>
          match pStrBody cs2 with
          | none => none
          | some (s1, rest) => some (ec :: s1, rest)
    else
      match pStrBody cs with
      | none => none
      | some (s1, rest) => some (c :: s1, rest)

/-- Tail of the literal `true`. -/
def rueTl : List Char := ['r', 'u', 'e']

/-- Tail of the literal `false`. -/
def alseTl : List Char := ['a', 'l', 's', 'e']

/-- Tail of the literal `null`. -/
def ullTl : List Char := ['u', 'l', 'l']

mutual

/-- Fuelled JSON value parser (model of the grammar accepted by
`JSON.parse`, without interior whitespace). -/
def pVal : Nat → List Char → Option (Json × List Char)
  | 0, _ => none
  | f + 1, s =>
    match s with
    | [] => none
    | c :: cs =>
      if c = lbr then
        match cs with
        | [] => none
        | d :: ds =>
          if d = rbr then some (Json.obj [], ds)
          else
            match pFields f cs with
            | some (fs2, r) => some (Json.obj fs2, r)
            | none => none
      else if c = '[' then
        match cs with
        | [] => none
        | d :: ds =>
          if d = ']' then some (Json.arr [], ds)
          else
            match pElems f cs with
            | some (vs, r) => some (Json.arr vs, r)
            | none => none
      else if c = '\"' then
        match pStrBody cs with
        | some (st, rest) => some (Json.str st, rest)
        | none => none
      else if c = 't' then
        if beginsWith rueTl cs then some (Json.bool true, cs.drop 3) else none
      else if c = 'f' then
        if beginsWith alseTl cs then some (Json.bool false, cs.drop 4) else none
      else if c = 'n' then
        if beginsWith ullTl cs then some (Json.null, cs.drop 3) else none
      else pNum s

/-- Fuelled parser for the field list of a JSON object, input starting at
the first key quote. -/
def pFields : Nat → List Char → Option (List (List Char × Json) × List Char)
  | 0, _ => none
  | f + 1, s =>
    match s with
    | [] => none
    | c :: cs =>
      if c = '\"' then
        match pStrBody cs with
        | none => none
        | some (key, r1) =>
          match r1 with
          | ':' :: r2 =>
            match pVal f r2 with
            | none => none
            | some (v, r3) =>
              match r3 with
              | [] => none
              | d :: r4 =>
                if d = ',' then
                  match pFields f r4 with
                  | some (fs2, r5) => some ((key, v) :: fs2, r5)
                  | none => none
                else if d = rbr then some ([(key, v)], r4)
                else none
          | _ => none
      else none

/-- Fuelled parser for the element list of a JSON array. -/
def pElems : Nat → List Char → Option (List Json × List Char)
  | 0, _ => none
  | f + 1, s =>
    match pVal f s with
    | none => none
    | some (v, r) =>
      match r with
      | [] => none
      | d :: r2 =>
        if d = ',' then
          match pElems f r2 with
          | some (vs, r3) => some (v :: vs, r3)
          | none => none
        else if d = ']' then some ([v], r2)
        else none

end

/-- Model of `JSON.parse`: trim the input, parse one value, require that
nothing follows it. -/
def jsonParse (s : List Char) : Option Json :=
  let t := trimList s
  match pVal (t.length + 1) t with
  | some (v, []) => some v
  | _ => none

/-- Key list for the `choices` property. -/
def chK : List Char := "choices".toList

/-- Key list for the `delta` property. -/
def dlK : List Char := "delta".toList

/-- Key list for the `content` property. -/
def ctK : List Char := "content".toList

/-- Key list for the index-`0` property of a non-array object. -/
def zeroK : List Char := "0".toList

/-- Field lookup modelling JS property access on an object; later
duplicate keys shadow earlier ones, as in objects built by `JSON.parse`. -/
def lookupF : List (List Char × Json) → List Char → Option Json
  | [], _ => none
  | (k, v) :: fs, key =>
    match lookupF fs key with
    | some r => some r
    | none => if k = key then some v else none

/-- JS property access `x.key` for a non-null, non-undefined `x`:
objects look the key up, every other value yields `undefined` (`none`). -/
def getProp (j : Json) (key : List Char) : Option Json :=
  match j with
  | Json.obj fs => lookupF fs key
  | _ => none

/-- JS index access `x[0]` for a non-null, non-undefined `x`: arrays and
strings index their first element, objects look up the key `"0"`, other
values yield `undefined`. -/
def idx0 (j : Json) : Option Json :=
  match j with
  | Json.arr (x :: _) => some x
  | Json.arr [] => none
  | Json.str (c :: _) => some (Json.str [c])
  | Json.str [] => none
  | Json.obj fs => lookupF fs zeroK
  | _ => none

/-- Optional chaining `o?.f…`: short-circuits to `undefined` when `o` is
`undefined` or `null`, otherwise applies the access. -/
def optChain (o : Option Json) (f : Json → Option Json) : Option Json :=
  match o with
  | none => none
  | some Json.null => none
  | some x => f x

/-- Model of the ChatInterface expression
`parsed.choices?.[0]?.delta?.content` (line 94).  The unchained
`parsed.choices` access throws a TypeError when `parsed` is JSON `null`;
every later access is optional-chained and cannot throw. -/
def deltaContent (parsed : Json) : Except Unit (Option Json) :=
  match parsed with
  | Json.null => Except.error ()
  | j =>
    let c1 := getProp j chK
    let c2 := optChain c1 idx0
    let c3 := optChain c2 (fun d => getProp d dlK)
    Except.ok (optChain c3 (fun d => getProp d ctK))

/-- Model of the AvatarCustomizer (line 383) expression
`parsed.choices[0]?.delta?.content`.  Beyond the `null` case, the
unchained `[0]` access also throws when `parsed.choices` is `undefined`
or `null`. -/
def naiveDelta (parsed : Json) : Except Unit (Option Json) :=
  match parsed with
  | Json.null => Except.error ()
  | j =>
    match getProp j chK with
    | none => Except.error ()
    | some Json.null => Except.error ()
    | some x =>
      let c2 := idx0 x
      let c3 := optChain c2 (fun d => getProp d dlK)
      Except.ok (optChain c3 (fun d => getProp d ctK))

/-- JS truthiness of a possibly-undefined value: `undefined`, `null`,
`false`, `0` and the empty string are falsy. -/
def truthy : Option Json → Bool
  | none => false
  | some Json.null => false
  | some (Json.bool b) => b
  | some (Json.num n) => n != 0
  | some (Json.str s) => ! s.isEmpty
  | some (Json.arr _) => true
  | some (Json.obj _) => true

/-- Conversion of an object to a string is a fixed token in JS. -/
def objStrC : List Char := "[object Object]".toList

mutual

/-- Model of JS string conversion as performed by `assistantMessage +=
content` when `content` is not already a string. -/
def jsToStr : Json → List Char
  | Json.null => ['n', 'u', 'l', 'l']
  | Json.bool true => ['t', 'r', 'u', 'e']
  | Json.bool false => ['f', 'a', 'l', 's', 'e']
  | Json.num n => (toString n).toList
  | Json.str s => s
  | Json.arr xs => arrToStr xs
  | Json.obj _ => objStrC

/-- Array-to-string conversion: elements joined by commas, with `null`
elements rendered empty, as JS `Array.prototype.toString` does. -/
def arrToStr : List Json → List Char
  | [] => []
  | [Json.null] => []
  | [x] => jsToStr x
  | Json.null :: y :: xs => ',' :: arrToStr (y :: xs)
  | x :: y :: xs => jsToStr x ++ ',' :: arrToStr (y :: xs)

end

/-- Leading marker of a comment line. -/
def colonMark : List Char := ":".toList

/-- Leading marker of a data line. -/
def dataMark : List Char := "data: ".toList

/-- Terminal sentinel payload. -/
def doneTok : List Char := "[DONE]".toList

/-- Outcome of the per-line body of the inner while loop
(ChatInterface.tsx lines 79-109): skip the line, emit a fragment, mark
the stream done, or push the line back and stop extracting. -/
inductive LineAct where
  | skip
  | emit (frag : List Char)
  | sentinel
  | pushback
deriving DecidableEq, Repr

/-- Per-line behaviour of the buffered assembler, translated from
ChatInterface.tsx lines 82-109: strip a trailing CR, skip comments and
blank lines, skip lines without the data marker, recognise the trimmed
`[DONE]` sentinel, otherwise parse the payload and emit the content
fragment when it is truthy.  A parse failure, or the TypeError thrown by
the content extraction on a `null` payload, lands in the same catch and
yields a pushback. -/
def handleLine (rawLine : List Char) : LineAct :=
  let line := stripCR rawLine
  if beginsWith colonMark line || decide (trimList line = []) then LineAct.skip
  else if ! beginsWith dataMark line then LineAct.skip
  else
    let jsonStr := trimList (line.drop 6)
    if jsonStr = doneTok then LineAct.sentinel
    else
      match jsonParse jsonStr with
      | none => LineAct.pushback
      | some parsed =>
        match deltaContent parsed with
        | Except.error _ => LineAct.pushback
        | Except.ok none => LineAct.skip
        | Except.ok (some v) =>
          if truthy (some v) then LineAct.emit (jsToStr v) else LineAct.skip

/-- Mutable state of one streaming turn: the carry-over text buffer, the
accumulated assistant message and the `streamDone` flag
(ChatInterface.tsx lines 64-66). -/
structure Asm where
  buf : List Char
  msg : List Char
  done : Bool
deriving DecidableEq, Repr

/-- Character test for the end of a line. -/
def notNL (c : Char) : Bool := ! (c == '\n')

/-- Fuelled translation of the inner `while ((newlineIndex =
textBuffer.indexOf("\n")) !== -1)` loop (lines 78-110): extract the text
before the first newline, act on it, and continue with the remainder
unless the line was a sentinel or a pushback.  The fuel only bounds the
iteration count; `processBuffer` supplies one more than the buffer
length, which the length decrease of each step makes sufficient. -/
def processBufN : Nat → Asm → Asm × List (List Char)
  | 0, a => (a, [])
  | f + 1, a =>
    if '\n' ∈ a.buf then
      let rawLine := a.buf.takeWhile notNL
      let rest := (a.buf.dropWhile notNL).tail
      match handleLine rawLine with
      | LineAct.skip => processBufN f { buf := rest, msg := a.msg, done := a.done }
      | LineAct.emit fr =>
        match processBufN f { buf := rest, msg := a.msg ++ fr, done := a.done } with
        | (a2, fs) => (a2, fr :: fs)
      | LineAct.sentinel => ({ buf := rest, msg := a.msg, done := true }, [])
      | LineAct.pushback =>
        ({ buf := stripCR rawLine ++ '\n' :: rest, msg := a.msg, done := a.done }, [])
    else (a, [])

/-- Line-extraction loop on the whole current buffer, together with the
fragments emitted (the successive `setMessages` updates). -/
def processBuffer (a : Asm) : Asm × List (List Char) :=
  processBufN (a.buf.length + 1) a

/-- Arrival of one decoded chunk: nothing happens after `streamDone`
(the outer `while (!streamDone …)` guard, line 71); otherwise the chunk
is appended to the buffer (line 75) and the line loop runs. -/
def ingest (a : Asm) (chunk : List Char) : Asm × List (List Char) :=
  if a.done then (a, [])
  else processBuffer { buf := a.buf ++ chunk, msg := a.msg, done := a.done }

/-- Sequential ingestion of a list of chunks, collecting all emitted
fragments. -/
def ingestAll (a : Asm) : List (List Char) → Asm × List (List Char)
  | [] => (a, [])
  | c :: cs =>
    match ingest a c with
    | (a1, f1) =>
      match ingestAll a1 cs with
      | (a2, f2) => (a2, f1 ++ f2)

/-- Initial state of a streaming turn (lines 64-66). -/
def asm0 : Asm := { buf := [], msg := [], done := false }

/-- Whole-stream run of the buffered assembler from the initial state. -/
def runChunks (chunks : List (List Char)) : Asm × List (List Char) :=
  ingestAll asm0 chunks

/-- Model of JS `chunk.split("\n")`: all segments, empties included. -/
def splitAllNL : List Char → List (List Char)
  | [] => [[]]
  | c :: rest =>
    if c = '\n' then [] :: splitAllNL rest
    else
      match splitAllNL rest with
      | l :: ls => (c :: l) :: ls
      | [] => [[c]]

/-- Per-line behaviour of the naive parser of AvatarCustomizer.tsx lines
376-397: only lines with the data marker are considered, the untrimmed
payload is compared with `[DONE]` (a match merely continues), a parse
failure or an extraction TypeError is logged and skipped, and the
`content || ""` fragment is appended. -/
def naiveLine (msg : List Char) (line : List Char) : List Char :=
  if beginsWith dataMark line then
    let d := line.drop 6
    if d = doneTok then msg
    else
      match jsonParse d with
      | none => msg
      | some parsed =>
        match naiveDelta parsed with
        | Except.error _ => msg
        | Except.ok c => if truthy c then msg ++ jsToStr (c.getD Json.null) else msg
  else msg

/-- Whole-stream run of the naive parser (AvatarCustomizer.tsx lines
369-399): every chunk is split on newlines independently, with no
carry-over and no termination flag. -/
def naiveRun (chunks : List (List Char)) : List Char :=
  chunks.foldl (fun m c => (splitAllNL c).foldl naiveLine m) []

/-- Decomposition of a text into its complete lines (text before each
newline) and the remainder after the last newline. -/
def splitNL : List Char → List (List Char) × List Char
  | [] => ([], [])
  | c :: rest =>
    if c = '\n' then ([] :: (splitNL rest).1, (splitNL rest).2)
    else
      match splitNL rest with
      | ([], r) => ([], c :: r)
      | (l :: ls, r) => ((c :: l) :: ls, r)

/-- Newline-terminated join of a list of lines. -/
def joinNL (ls : List (List Char)) : List Char :=
  (ls.map (fun l => l ++ ['\n'])).flatten

/-- Reference line-level semantics of the buffered assembler: process
lines in order, stopping at a sentinel or a pushback; returns the final
message, whether the sentinel was reached, and the emitted fragments. -/
def procLines (msg : List Char) : List (List Char) → List Char × Bool × List (List Char)
  | [] => (msg, false, [])
  | l :: ls =>
    match handleLine l with
    | LineAct.skip => procLines msg ls
    | LineAct.emit fr =>
      match procLines (msg ++ fr) ls with
      | (m, d, fs) => (m, d, fr :: fs)
    | LineAct.sentinel => (msg, true, [])
    | LineAct.pushback => (msg, false, [])

/-- Message roles used by the chat UI. -/
inductive Role where
  | user
  | assistant
deriving DecidableEq, Repr

/-- One rendered chat message. -/
structure Msg where
  role : Role
  content : List Char
deriving DecidableEq, Repr

/-- Transport events seen by the read loop: a decoded text chunk, a clean
end of stream, or a read that throws. -/
inductive ReadEv where
  | chunk (s : List Char)
  | fin
  | err
deriving DecidableEq, Repr

/-- Model of the read loop of lines 71-111: the `streamDone` guard is
checked before each read, `done` breaks cleanly, and a throwing read
aborts the loop with the exception flag set. -/
def streamLoop : Asm → List ReadEv → Asm × Bool
  | a, [] => (a, false)
  | a, e :: es =>
    if a.done then (a, false)
    else
      match e with
      | ReadEv.chunk s => streamLoop (ingest a s).1 es
      | ReadEv.fin => (a, false)
      | ReadEv.err => (a, true)

/-- Result of one `sendMessage` call: the rendered message list, whether
an error toast was shown, and the pair of rows inserted into
`chat_messages` when the insert ran (user content, assistant content). -/
structure SendOut where
  messages : List Msg
  toastErr : Bool
  inserted : Option (List Char × List Char)
deriving DecidableEq, Repr

/-- Model of `sendMessage` (ChatInterface.tsx lines 24-128) over a prior
message list.  `hasToken` is the session check; `fetched` is `none` when
the request fails or returns a non-success status (both throw before
streaming) and otherwise carries the transport events; `userKnown` is the
`getUser` result guarding the insert.  The catch handler shows a toast
and drops the last message of the list. -/
def sendMessage (prior : List Msg) (inp : List Char) (hasToken : Bool)
    (fetched : Option (List ReadEv)) (userKnown : Bool) : SendOut :=
  if trimList inp = [] then { messages := prior, toastErr := false, inserted := none }
  else
    let msgs1 := prior ++ [{ role := Role.user, content := inp }]
    if ! hasToken then { messages := msgs1, toastErr := true, inserted := none }
    else
      match fetched with
      | none => { messages := msgs1.dropLast, toastErr := true, inserted := none }
      | some reads =>
        let msgs2 := msgs1 ++ [{ role := Role.assistant, content := [] }]
        match streamLoop asm0 reads with
        | (a, threw) =>
          let msgs3 := msgs2.dropLast ++ [{ role := Role.assistant, content := a.msg }]
          if threw then { messages := msgs3.dropLast, toastErr := true, inserted := none }
          else if userKnown then
            { messages := msgs3, toastErr := false, inserted := some (inp, a.msg) }
          else { messages := msgs3, toastErr := false, inserted := none }

/-- Well-formedness of a stream text with respect to the assembler: no
complete line of it takes the parse-failure pushback path. -/
def goodLines (t : List Char) : Prop :=
  ∀ l ∈ (splitNL t).1, handleLine l ≠ LineAct.pushback

instance goodLinesDec (t : List Char) : Decidable (goodLines t) := by
  unfold goodLines
  exact List.decidableBAll _ _

/-- Sentinel line written exactly as the wire protocol specifies it. -/
def sentLine : List Char := dataMark ++ doneTok

/-- Test that a JSON value is not the literal `null`. -/
def jnotNull : Json → Bool
  | Json.null => false
  | _ => true

/-- Test that a parsed payload carries a content field that is absent or a
string (the shape hypothesis of the parser-equivalence claim). -/
def contentStrOK (j : Json) : Bool :=
  match deltaContent j with
  | Except.ok none => true
  | Except.ok (some (Json.str _)) => true
  | _ => false

/-- Per-line precondition of the parser-equivalence claim: non-data lines
are unconstrained; a data line is either the exact sentinel or carries a
payload that parses to a non-null JSON value whose content field is
absent or a string. -/
def lineOK (l : List Char) : Bool :=
  if beginsWith dataMark l then
    if l = sentLine then true
    else
      match jsonParse (l.drop 6) with
      | some j => jnotNull j && contentStrOK j
      | none => false
  else true

/-- Positional precondition of the parser-equivalence claim: after any
occurrence of the sentinel line, no further line is a data line. -/
def noDataAfterSent : List (List Char) → Bool
  | [] => true
  | l :: ls =>
    (if l = sentLine then ls.all (fun x => ! beginsWith dataMark x) else true) &&
      noDataAfterSent ls

/-- One data line carrying the fragment `A`, and its peers for `B`, `C`. -/
def lineFragA : List Char :=
  "data: \x7b\"choices\":[\x7b\"delta\":\x7b\"content\":\"A\"\x7d\x7d]\x7d".toList

def lineFragB : List Char :=
  "data: \x7b\"choices\":[\x7b\"delta\":\x7b\"content\":\"B\"\x7d\x7d]\x7d".toList

def lineFragC : List Char :=
  "data: \x7b\"choices\":[\x7b\"delta\":\x7b\"content\":\"C\"\x7d\x7d]\x7d".toList

/-- Stream text delivering the fragments `A`, `B`, `C` in order. -/
def abcText : List Char := joinNL [lineFragA, lineFragB, lineFragC]

/-- First chunk of the split-JSON scenario: a data line cut inside the
JSON payload, before any newline. -/
def splitChunk1 : List Char := "data: \x7b\"choices\":[\x7b\"delta\"".toList

/-- Second chunk of the split-JSON scenario: the rest of the payload
followed by a newline. -/
def splitChunk2 : List Char := ":\x7b\"content\":\"X\"\x7d\x7d]\x7d\n".toList

/-- Payload whose content field is present but the boolean `true`. -/
def truePayload : List Char :=
  "\x7b\"choices\":[\x7b\"delta\":\x7b\"content\":true\x7d\x7d]\x7d".toList

/-- Payload with an empty delta (no content field). -/
def emptyDeltaPayload : List Char := "\x7b\"choices\":[\x7b\"delta\":\x7b\x7d\x7d]\x7d".toList

/-- Chunk whose first data line has the JSON `null` payload and whose
second carries the fragment `A`. -/
def nullThenA : List Char := "data: null\n".toList ++ lineFragA ++ ['\n']

/-- Sample user input for the orchestration theorems. -/
def hiInput : List Char := "hi".toList

/-- Sample malformed data line (payload that never parses). -/
def oddLine : List Char := "data: oops".toList

/-- Parsed form of `emptyDeltaPayload`. -/
def emptyDeltaJson : Json :=
  Json.obj [(chK, Json.arr [Json.obj [(dlK, Json.obj [])]])]

/-- Transport trace that delivers the A data line and then throws. -/
def errReads : List ReadEv := [ReadEv.chunk (lineFragA ++ ['\n']), ReadEv.err]

theorem dropWhile_rdrop_drop (p : Char → Bool) (s : List Char) :
    List.dropWhile p (List.rdropWhile p (List.dropWhile p s)) =
      List.rdropWhile p (List.dropWhile p s) := by
  rw [List.dropWhile_eq_self_iff]
  intro hl
  have h2 : (List.dropWhile p s).rdropWhile p <+: List.dropWhile p s :=
    List.rdropWhile_prefix p _
  have hlen : 0 < (List.dropWhile p s).length := lt_of_lt_of_le hl h2.length_le
  have h1 : List.dropWhile p (List.dropWhile p s) = List.dropWhile p s :=
    List.dropWhile_idempotent _ _
  have h3 := List.dropWhile_eq_self_iff.mp h1 hlen
  simp only [List.get_eq_getElem] at h3 ⊢
  rw [h2.getElem]
  exact h3

theorem trimList_idem (s : List Char) : trimList (trimList s) = trimList s := by
  unfold trimList
  rw [dropWhile_rdrop_drop, List.rdropWhile_idempotent]

theorem jsonParse_trim (s : List Char) : jsonParse (trimList s) = jsonParse s := by
  unfold jsonParse
  rw [trimList_idem]

theorem splitNL_noNL (t : List Char) (h : '\n' ∉ t) : splitNL t = ([], t) := by
  induction t with
  | nil => rfl
  | cons c rest ih =>
    have hc : ¬(c = '\n') := fun hc => h (by simp [hc])
    have hr : '\n' ∉ rest := fun hm => h (List.mem_cons_of_mem _ hm)
    simp only [splitNL, if_neg hc, ih hr]

theorem splitNL_cons_line (l rest : List Char) (h : '\n' ∉ l) :
    splitNL (l ++ '\n' :: rest) = (l :: (splitNL rest).1, (splitNL rest).2) := by
  induction l with
  | nil => simp [splitNL]
  | cons c cs ih =>
    have hc : ¬(c = '\n') := fun hc => h (by simp [hc])
    have hcs : '\n' ∉ cs := fun hm => h (List.mem_cons_of_mem _ hm)
    simp only [List.cons_append, splitNL, if_neg hc]
    rw [show cs.append ('\n' :: rest) = cs ++ '\n' :: rest from rfl, ih hcs]

theorem splitNL_lines_noNL (t : List Char) :
    (∀ l ∈ (splitNL t).1, '\n' ∉ l) ∧ '\n' ∉ (splitNL t).2 := by
  induction t with
  | nil => simp [splitNL]
  | cons c rest ih =>
    by_cases hc : c = '\n'
    · subst hc
      simp only [splitNL, if_pos rfl]
      exact ⟨fun l hl => by
        rcases List.mem_cons.mp hl with h | h
        · subst h; simp
        · exact ih.1 l h, ih.2⟩
    · rcases hsp : splitNL rest with ⟨ls, r⟩
      rw [hsp] at ih
      cases ls with
      | nil =>
        simp only [splitNL, if_neg hc, hsp]
        exact ⟨fun l hl => by simp at hl, by
          intro hm
          rcases List.mem_cons.mp hm with h | h
          · exact hc h.symm
          · exact ih.2 h⟩
      | cons l0 ls0 =>
        simp only [splitNL, if_neg hc, hsp]
        refine ⟨fun l hl => ?_, ih.2⟩
        rcases List.mem_cons.mp hl with h | h
        · subst h
          intro hm
          rcases List.mem_cons.mp hm with h | h
          · exact hc h.symm
          · exact ih.1 l0 (by simp) h
        · exact ih.1 l (List.mem_cons_of_mem _ h)

theorem splitNL_recon (t : List Char) : joinNL (splitNL t).1 ++ (splitNL t).2 = t := by
  induction t with
  | nil => rfl
  | cons c rest ih =>
    by_cases hc : c = '\n'
    · subst hc
      simp only [splitNL, if_pos rfl, joinNL, List.map_cons, List.flatten_cons]
      simpa [joinNL, List.append_assoc] using ih
    · rcases hsp : splitNL rest with ⟨ls, r⟩
      rw [hsp] at ih
      cases ls with
      | nil =>
        simp only [splitNL, if_neg hc, hsp]
        simp only [joinNL, List.map_nil, List.flatten_nil, List.nil_append] at ih ⊢
        rw [ih]
      | cons l0 ls0 =>
        simp only [splitNL, if_neg hc, hsp]
        simp only [joinNL, List.map_cons, List.flatten_cons, List.cons_append,
          List.append_assoc] at ih ⊢
        rw [ih]

theorem splitNL_join (ls : List (List Char)) (v : List Char)
    (h : ∀ l ∈ ls, '\n' ∉ l) :
    splitNL (joinNL ls ++ v) = (ls ++ (splitNL v).1, (splitNL v).2) := by
  induction ls with
  | nil => simp [joinNL]
  | cons l ls0 ih =>
    have hl : '\n' ∉ l := h l (by simp)
    have hls : ∀ x ∈ ls0, '\n' ∉ x := fun x hx => h x (List.mem_cons_of_mem _ hx)
    have : joinNL (l :: ls0) ++ v = l ++ '\n' :: (joinNL ls0 ++ v) := by
      simp [joinNL, List.append_assoc]
    rw [this, splitNL_cons_line _ _ hl, ih hls]
    simp

theorem buf_decomp (t : List Char) (h : '\n' ∈ t) :
    t = t.takeWhile notNL ++ '\n' :: (t.dropWhile notNL).tail ∧
      '\n' ∉ t.takeWhile notNL := by
  induction t with
  | nil => cases h
  | cons c rest ih =>
    by_cases hc : c = '\n'
    · subst hc
      simp [List.takeWhile_cons, List.dropWhile_cons, notNL]
    · have hr : '\n' ∈ rest := by
        rcases List.mem_cons.mp h with h0 | h0
        · exact absurd h0.symm hc
        · exact h0
      have hnc : notNL c = true := by simp [notNL, hc]
      rcases ih hr with ⟨h1, h2⟩
      constructor
      · conv_lhs => rw [h1]
        simp [List.takeWhile_cons, List.dropWhile_cons, hnc]
      · intro hm
        rw [List.takeWhile_cons, if_pos hnc] at hm
        rcases List.mem_cons.mp hm with h0 | h0
        · exact hc h0.symm
        · exact h2 h0



theorem processBufN_noNL (f : Nat) (a : Asm) (h : '\n' ∉ a.buf) :
    processBufN (f + 1) a = (a, []) := by
  simp [processBufN, h]

theorem processBufN_skip (f : Nat) (a : Asm) (h : '\n' ∈ a.buf)
    (hact : handleLine (a.buf.takeWhile notNL) = LineAct.skip) :
    processBufN (f + 1) a =
      processBufN f ⟨(a.buf.dropWhile notNL).tail, a.msg, a.done⟩ := by
  simp [processBufN, h, hact]

theorem processBufN_emit (f : Nat) (a : Asm) (fr : List Char) (h : '\n' ∈ a.buf)
    (hact : handleLine (a.buf.takeWhile notNL) = LineAct.emit fr) :
    processBufN (f + 1) a =
      ((processBufN f ⟨(a.buf.dropWhile notNL).tail, a.msg ++ fr, a.done⟩).1,
        fr :: (processBufN f ⟨(a.buf.dropWhile notNL).tail, a.msg ++ fr, a.done⟩).2) := by
  simp [processBufN, h, hact]

theorem processBufN_sent (f : Nat) (a : Asm) (h : '\n' ∈ a.buf)
    (hact : handleLine (a.buf.takeWhile notNL) = LineAct.sentinel) :
    processBufN (f + 1) a = (⟨(a.buf.dropWhile notNL).tail, a.msg, true⟩, []) := by
  simp [processBufN, h, hact]

theorem processBufN_pb (f : Nat) (a : Asm) (h : '\n' ∈ a.buf)
    (hact : handleLine (a.buf.takeWhile notNL) = LineAct.pushback) :
    processBufN (f + 1) a =
      (⟨stripCR (a.buf.takeWhile notNL) ++ '\n' :: (a.buf.dropWhile notNL).tail, a.msg, a.done⟩,
        []) := by
  simp [processBufN, h, hact]

theorem processBufN_spec (f : Nat) :
    ∀ a : Asm, a.buf.length < f → a.done = false →
    (∀ l ∈ (splitNL a.buf).1, handleLine l ≠ LineAct.pushback) →
    (processBufN f a).1.msg = (procLines a.msg (splitNL a.buf).1).1 ∧
    (processBufN f a).1.done = (procLines a.msg (splitNL a.buf).1).2.1 ∧
    (processBufN f a).2 = (procLines a.msg (splitNL a.buf).1).2.2 ∧
    ((procLines a.msg (splitNL a.buf).1).2.1 = false →
      (processBufN f a).1.buf = (splitNL a.buf).2) := by
  induction f with
  | zero => intro a ha; omega
  | succ f ih =>
    intro a ha hd hg
    by_cases hnl : '\n' ∈ a.buf
    · rcases buf_decomp a.buf hnl with ⟨hdec, hnotin⟩
      have hsp : splitNL a.buf =
          ((a.buf.takeWhile notNL) :: (splitNL ((a.buf.dropWhile notNL).tail)).1,
            (splitNL ((a.buf.dropWhile notNL).tail)).2) := by
        conv_lhs => rw [hdec]
        exact splitNL_cons_line _ _ hnotin
      have hlen : ((a.buf.dropWhile notNL).tail).length < f := by
        have h1 : a.buf.length =
            (a.buf.takeWhile notNL).length + 1 + ((a.buf.dropWhile notNL).tail).length := by
          conv_lhs => rw [hdec]
          simp [List.length_append]
          omega
        omega
      have hgl : handleLine (a.buf.takeWhile notNL) ≠ LineAct.pushback := by
        apply hg
        rw [hsp]
        simp
      have hgrest : ∀ x ∈ (splitNL ((a.buf.dropWhile notNL).tail)).1,
          handleLine x ≠ LineAct.pushback := by
        intro x hx
        apply hg
        rw [hsp]
        exact List.mem_cons_of_mem _ hx
      rw [hsp]
      cases hact : handleLine (a.buf.takeWhile notNL) with
      | skip =>
        rw [processBufN_skip f a hnl hact]
        simp only [procLines, hact]
        exact ih ⟨(a.buf.dropWhile notNL).tail, a.msg, a.done⟩ hlen hd hgrest
      | emit fr =>
        rw [processBufN_emit f a fr hnl hact]
        simp only [procLines, hact]
        have hrec := ih ⟨(a.buf.dropWhile notNL).tail, a.msg ++ fr, a.done⟩ hlen hd hgrest
        rcases hpl : procLines (a.msg ++ fr)
            (splitNL ((a.buf.dropWhile notNL).tail)).1 with ⟨m, rest2⟩
        rcases rest2 with ⟨d, fs2⟩
        rw [hpl] at hrec
        simp only at hrec ⊢
        exact ⟨hrec.1, hrec.2.1, by rw [hrec.2.2.1], hrec.2.2.2⟩
      | sentinel =>
        rw [processBufN_sent f a hnl hact]
        simp [procLines, hact]
      | pushback => exact absurd hact hgl
    · have hsp : splitNL a.buf = ([], a.buf) := splitNL_noNL _ hnl
      rw [hsp, processBufN_noNL f a hnl]
      simp [procLines, hd]

theorem processBuffer_spec (a : Asm) (hd : a.done = false)
    (hg : ∀ l ∈ (splitNL a.buf).1, handleLine l ≠ LineAct.pushback) :
    (processBuffer a).1.msg = (procLines a.msg (splitNL a.buf).1).1 ∧
    (processBuffer a).1.done = (procLines a.msg (splitNL a.buf).1).2.1 ∧
    (processBuffer a).2 = (procLines a.msg (splitNL a.buf).1).2.2 ∧
    ((procLines a.msg (splitNL a.buf).1).2.1 = false →
      (processBuffer a).1.buf = (splitNL a.buf).2) :=
  processBufN_spec (a.buf.length + 1) a (Nat.lt_succ_self _) hd hg

theorem processBufN_msg_flatten (f : Nat) :
    ∀ a : Asm, (processBufN f a).1.msg = a.msg ++ (processBufN f a).2.flatten := by
  induction f with
  | zero => intro a; simp [processBufN]
  | succ f ih =>
    intro a
    by_cases hnl : '\n' ∈ a.buf
    · cases hact : handleLine (a.buf.takeWhile notNL) with
      | skip =>
        rw [processBufN_skip f a hnl hact]
        exact ih _
      | emit fr =>
        rw [processBufN_emit f a fr hnl hact]
        have := ih ⟨(a.buf.dropWhile notNL).tail, a.msg ++ fr, a.done⟩
        simp only at this ⊢
        rw [this]
        simp [List.append_assoc]
      | sentinel =>
        rw [processBufN_sent f a hnl hact]
        simp
      | pushback =>
        rw [processBufN_pb f a hnl hact]
        simp
    · rw [processBufN_noNL f a hnl]
      simp

theorem ingest_msg_flatten (a : Asm) (c : List Char) :
    (ingest a c).1.msg = a.msg ++ (ingest a c).2.flatten := by
  unfold ingest
  by_cases hd : a.done
  · simp [hd]
  · simp only [hd, if_neg, Bool.false_eq_true, not_false_iff]
    exact processBufN_msg_flatten _ _

theorem ingestAll_msg_flatten :
    ∀ (cs : List (List Char)) (a : Asm),
      (ingestAll a cs).1.msg = a.msg ++ (ingestAll a cs).2.flatten := by
  intro cs
  induction cs with
  | nil => intro a; simp [ingestAll]
  | cons c cs ih =>
    intro a
    simp only [ingestAll]
    rcases h1 : ingest a c with ⟨a1, f1⟩
    rcases h2 : ingestAll a1 cs with ⟨a2, f2⟩
    have e1 := ingest_msg_flatten a c
    rw [h1] at e1
    have e2 := ih a1
    rw [h2] at e2
    simp only at e1 e2 ⊢
    rw [e2, e1]
    simp [List.append_assoc]

theorem procLines_cons_skip (m l : List Char) (ls : List (List Char))
    (hact : handleLine l = LineAct.skip) : procLines m (l :: ls) = procLines m ls := by
  simp [procLines, hact]

theorem procLines_cons_emit (m l : List Char) (ls : List (List Char)) (fr : List Char)
    (hact : handleLine l = LineAct.emit fr) :
    procLines m (l :: ls) =
      ((procLines (m ++ fr) ls).1, (procLines (m ++ fr) ls).2.1,
        fr :: (procLines (m ++ fr) ls).2.2) := by
  rcases hp : procLines (m ++ fr) ls with ⟨m1, d1, fs1⟩
  simp [procLines, hact, hp]

theorem procLines_cons_sent (m l : List Char) (ls : List (List Char))
    (hact : handleLine l = LineAct.sentinel) : procLines m (l :: ls) = (m, true, []) := by
  simp [procLines, hact]

theorem procLines_cons_pb (m l : List Char) (ls : List (List Char))
    (hact : handleLine l = LineAct.pushback) : procLines m (l :: ls) = (m, false, []) := by
  simp [procLines, hact]

theorem procLines_stop (ls : List (List Char)) :
    ∀ (m : List Char) (ys : List (List Char)), (procLines m ls).2.1 = true →
      procLines m (ls ++ ys) = procLines m ls := by
  induction ls with
  | nil => intro m ys h; simp [procLines] at h
  | cons l ls ih =>
    intro m ys h
    cases hact : handleLine l with
    | skip =>
      rw [procLines_cons_skip m l ls hact] at h
      simp only [List.cons_append]
      rw [procLines_cons_skip m l (ls ++ ys) hact, procLines_cons_skip m l ls hact]
      exact ih m ys h
    | emit fr =>
      rw [procLines_cons_emit m l ls fr hact] at h
      simp only at h
      simp only [List.cons_append]
      rw [procLines_cons_emit m l (ls ++ ys) fr hact, procLines_cons_emit m l ls fr hact,
        ih (m ++ fr) ys h]
    | sentinel =>
      simp only [List.cons_append]
      rw [procLines_cons_sent m l (ls ++ ys) hact, procLines_cons_sent m l ls hact]
    | pushback =>
      rw [procLines_cons_pb m l ls hact] at h
      simp at h

theorem procLines_nostop (ls : List (List Char)) :
    ∀ (m : List Char) (ys : List (List Char)),
      (∀ l ∈ ls, handleLine l ≠ LineAct.pushback) → (procLines m ls).2.1 = false →
      (procLines m (ls ++ ys)).1 = (procLines (procLines m ls).1 ys).1 ∧
      (procLines m (ls ++ ys)).2.1 = (procLines (procLines m ls).1 ys).2.1 ∧
      (procLines m (ls ++ ys)).2.2 =
        (procLines m ls).2.2 ++ (procLines (procLines m ls).1 ys).2.2 := by
  induction ls with
  | nil => intro m ys _ _; simp [procLines]
  | cons l ls ih =>
    intro m ys hg h
    have hgt : ∀ x ∈ ls, handleLine x ≠ LineAct.pushback :=
      fun x hx => hg x (List.mem_cons_of_mem _ hx)
    cases hact : handleLine l with
    | skip =>
      rw [procLines_cons_skip m l ls hact] at h
      simp only [List.cons_append]
      rw [procLines_cons_skip m l (ls ++ ys) hact, procLines_cons_skip m l ls hact]
      exact ih m ys hgt h
    | emit fr =>
      rw [procLines_cons_emit m l ls fr hact] at h
      simp only at h
      simp only [List.cons_append]
      rw [procLines_cons_emit m l (ls ++ ys) fr hact, procLines_cons_emit m l ls fr hact]
      have := ih (m ++ fr) ys hgt h
      simp only at this ⊢
      exact ⟨this.1, this.2.1, by rw [this.2.2]; simp⟩
    | sentinel =>
      rw [procLines_cons_sent m l ls hact] at h
      simp at h
    | pushback => exact absurd hact (hg l (by simp))

theorem ingestAll_append (cs : List (List Char)) :
    ∀ (a : Asm) (ds : List (List Char)),
      (ingestAll a (cs ++ ds)).1 = (ingestAll (ingestAll a cs).1 ds).1 ∧
      (ingestAll a (cs ++ ds)).2 =
        (ingestAll a cs).2 ++ (ingestAll (ingestAll a cs).1 ds).2 := by
  induction cs with
  | nil => intro a ds; simp [ingestAll]
  | cons c cs ih =>
    intro a ds
    simp only [List.cons_append, ingestAll]
    rcases h1 : ingest a c with ⟨a1, f1⟩
    rcases h2 : ingestAll a1 (cs ++ ds) with ⟨a2, f2⟩
    rcases h3 : ingestAll a1 cs with ⟨a3, f3⟩
    have := ih a1 ds
    rw [h2, h3] at this
    simp only at this ⊢
    rcases h4 : ingestAll a3 ds with ⟨a4, f4⟩
    rw [h4] at this
    simp only at this
    rw [this.1, this.2]
    simp [List.append_assoc]

theorem runChunks_spec (chunks : List (List Char)) (hg : goodLines chunks.flatten) :
    (runChunks chunks).1.msg = (procLines [] (splitNL chunks.flatten).1).1 ∧
    (runChunks chunks).1.done = (procLines [] (splitNL chunks.flatten).1).2.1 ∧
    (runChunks chunks).2 = (procLines [] (splitNL chunks.flatten).1).2.2 ∧
    ((procLines [] (splitNL chunks.flatten).1).2.1 = false →
      (runChunks chunks).1.buf = (splitNL chunks.flatten).2) := by
  induction chunks using List.reverseRecOn with
  | nil => simp [runChunks, ingestAll, procLines, splitNL, asm0]
  | append_singleton cs c ih =>
    have hfl : (cs ++ [c]).flatten = cs.flatten ++ c := by simp
    have hrecon := splitNL_recon cs.flatten
    have hnoNL := (splitNL_lines_noNL cs.flatten).1
    have hdec : cs.flatten ++ c =
        joinNL (splitNL cs.flatten).1 ++ ((splitNL cs.flatten).2 ++ c) := by
      rw [← List.append_assoc, hrecon]
    have hsp : splitNL (cs.flatten ++ c) =
        ((splitNL cs.flatten).1 ++ (splitNL ((splitNL cs.flatten).2 ++ c)).1,
          (splitNL ((splitNL cs.flatten).2 ++ c)).2) := by
      rw [hdec, splitNL_join _ _ hnoNL]
    have hg2 : ∀ l ∈ (splitNL cs.flatten).1 ++ (splitNL ((splitNL cs.flatten).2 ++ c)).1,
        handleLine l ≠ LineAct.pushback := by
      intro l hl
      apply hg
      rw [hfl, hsp]
      exact hl
    have hg0 : goodLines cs.flatten := by
      intro l hl
      exact hg2 l (List.mem_append_left _ hl)
    have hg1 : ∀ l ∈ (splitNL ((splitNL cs.flatten).2 ++ c)).1,
        handleLine l ≠ LineAct.pushback := by
      intro l hl
      exact hg2 l (List.mem_append_right _ hl)
    have ih0 := ih hg0
    have happ := ingestAll_append cs asm0 [c]
    have hsingle : ∀ a : Asm, ingestAll a [c] = ((ingest a c).1, (ingest a c).2) := by
      intro a
      rcases hi : ingest a c with ⟨a1, f1⟩
      simp [ingestAll, hi]
    have hsp1 : (splitNL (cs.flatten ++ c)).1 =
        (splitNL cs.flatten).1 ++ (splitNL ((splitNL cs.flatten).2 ++ c)).1 := by rw [hsp]
    have hsp2 : (splitNL (cs.flatten ++ c)).2 = (splitNL ((splitNL cs.flatten).2 ++ c)).2 := by
      rw [hsp]
    have hrc1 : (runChunks (cs ++ [c])).1 = (ingest (runChunks cs).1 c).1 := by
      rw [show runChunks (cs ++ [c]) = ingestAll asm0 (cs ++ [c]) from rfl, happ.1, hsingle]
      rfl
    have hrc2 : (runChunks (cs ++ [c])).2 =
        (runChunks cs).2 ++ (ingest (runChunks cs).1 c).2 := by
      rw [show runChunks (cs ++ [c]) = ingestAll asm0 (cs ++ [c]) from rfl, happ.2, hsingle]
      rfl
    rw [hfl, hsp1, hsp2]
    by_cases hd0 : (procLines [] (splitNL cs.flatten).1).2.1 = true
    · -- the sentinel was already reached within cs
      have hstop := procLines_stop (splitNL cs.flatten).1 []
        (splitNL ((splitNL cs.flatten).2 ++ c)).1 hd0
      have hdone : (runChunks cs).1.done = true := by rw [ih0.2.1]; exact hd0
      have hing : ingest (runChunks cs).1 c = ((runChunks cs).1, []) := by
        unfold ingest
        rw [hdone]
        simp
      rw [hstop, hrc1, hrc2, hing]
      refine ⟨ih0.1, ih0.2.1, by simp [ih0.2.2.1], ?_⟩
      intro hfalse
      rw [hd0] at hfalse
      cases hfalse
    · -- no sentinel yet: the new chunk is processed from the carried buffer
      have hd0f : (procLines [] (splitNL cs.flatten).1).2.1 = false := by
        cases hb : (procLines [] (splitNL cs.flatten).1).2.1
        · rfl
        · exact absurd hb hd0
      have hdone : (runChunks cs).1.done = false := by rw [ih0.2.1]; exact hd0f
      have hbuf : (runChunks cs).1.buf = (splitNL cs.flatten).2 := ih0.2.2.2 hd0f
      have hmsg : (runChunks cs).1.msg = (procLines [] (splitNL cs.flatten).1).1 := ih0.1
      have hing : ingest (runChunks cs).1 c =
          processBuffer ⟨(splitNL cs.flatten).2 ++ c,
            (procLines [] (splitNL cs.flatten).1).1, false⟩ := by
        unfold ingest
        rw [hdone]
        simp only [Bool.false_eq_true, if_false]
        congr 1
        rcases hA : (runChunks cs).1 with ⟨b, m, d⟩
        rw [hA] at hbuf hmsg hdone
        simp only at hbuf hmsg hdone
        simp [hbuf, hmsg, hdone]
      have hpb := processBuffer_spec ⟨(splitNL cs.flatten).2 ++ c,
        (procLines [] (splitNL cs.flatten).1).1, false⟩ rfl hg1
      simp only at hpb
      have hns := procLines_nostop (splitNL cs.flatten).1 []
        (splitNL ((splitNL cs.flatten).2 ++ c)).1 (fun l hl => hg0 l hl) hd0f
      rw [hrc1, hrc2, hing]
      refine ⟨?_, ?_, ?_, ?_⟩
      · rw [hns.1, hpb.1]
      · rw [hns.2.1, hpb.2.1]
      · rw [hns.2.2, hpb.2.2.1, ih0.2.2.1]
      · intro hfalse
        rw [hns.2.1] at hfalse
        exact hpb.2.2.2 hfalse

theorem extract_line (l rest : List Char) (h : '\n' ∉ l) :
    (l ++ '\n' :: rest).takeWhile notNL = l ∧
      ((l ++ '\n' :: rest).dropWhile notNL).tail = rest := by
  induction l with
  | nil => simp [List.takeWhile_cons, List.dropWhile_cons, notNL]
  | cons c cs ih =>
    have hc : ¬(c = '\n') := fun hc => h (by simp [hc])
    have hcs : '\n' ∉ cs := fun hm => h (List.mem_cons_of_mem _ hm)
    have hnc : notNL c = true := by simp [notNL, hc]
    rcases ih hcs with ⟨h1, h2⟩
    constructor
    · simp only [List.cons_append, List.takeWhile_cons, hnc, if_pos]
      rw [h1]
    · simp only [List.cons_append, List.dropWhile_cons, hnc, if_pos]
      exact h2

theorem stripCR_eq_self (l : List Char) (h : '\r' ∉ l) : stripCR l = l := by
  unfold stripCR
  rw [if_neg]
  intro hc
  have hmem : '\r' ∈ l.getLast? := by rw [hc]; rfl
  rcases List.mem_getLast?_eq_getLast hmem with ⟨hne, heq⟩
  exact h (heq ▸ List.getLast_mem hne)

theorem beginsWith_append_self (x y : List Char) : beginsWith x (x ++ y) = true := by
  induction x with
  | nil => rfl
  | cons c cs ih => simp [beginsWith, ih]

theorem beginsWith_decomp (x : List Char) :
    ∀ l : List Char, beginsWith x l = true → x ++ l.drop x.length = l := by
  induction x with
  | nil => intro l _; simp
  | cons c cs ih =>
    intro l h
    cases l with
    | nil => simp [beginsWith] at h
    | cons d ds =>
      simp only [beginsWith, Bool.and_eq_true, beq_iff_eq] at h
      rw [h.1]
      simp only [List.cons_append, List.length_cons, List.drop_succ_cons]
      rw [ih ds h.2]

theorem trimList_cons_ne_nil (c : Char) (t : List Char) (h : isWsChar c = false) :
    trimList (c :: t) ≠ [] := by
  unfold trimList
  rw [List.dropWhile_cons, h]
  simp only [Bool.false_eq_true, if_false]
  intro hh
  have := List.rdropWhile_eq_nil_iff.mp hh c (by simp)
  rw [h] at this
  cases this

theorem handleLine_dataMark (p : List Char) (hr : (dataMark ++ p).getLast? ≠ some '\r') :
    handleLine (dataMark ++ p) =
      (if trimList p = doneTok then LineAct.sentinel
       else
        match jsonParse (trimList p) with
        | none => LineAct.pushback
        | some parsed =>
          match deltaContent parsed with
          | Except.error _ => LineAct.pushback
          | Except.ok none => LineAct.skip
          | Except.ok (some v) =>
            if truthy (some v) then LineAct.emit (jsToStr v) else LineAct.skip) := by
  have hstrip : stripCR (dataMark ++ p) = dataMark ++ p := by
    unfold stripCR
    rw [if_neg hr]
  have hcolon : beginsWith colonMark (dataMark ++ p) = false := rfl
  have hne : trimList (dataMark ++ p) ≠ [] :=
    trimList_cons_ne_nil 'd' _ (by decide)
  have hdata : beginsWith dataMark (dataMark ++ p) = true := beginsWith_append_self _ _
  have hdrop : (dataMark ++ p).drop 6 = p := rfl
  simp only [handleLine]
  rw [hstrip, hcolon, hdata, hdrop]
  simp only [Bool.false_or, decide_eq_true_eq, Bool.not_true, Bool.false_eq_true, if_false]
  rw [if_neg hne]

theorem splitNL_joinNL (ls : List (List Char)) (h : ∀ l ∈ ls, '\n' ∉ l) :
    splitNL (joinNL ls) = (ls, []) := by
  have := splitNL_join ls [] h
  simpa [splitNL] using this

theorem joinNL_append (a b : List (List Char)) : joinNL (a ++ b) = joinNL a ++ joinNL b := by
  simp [joinNL]

theorem handleLine_skip_nondata (rawLine : List Char)
    (h : beginsWith dataMark (stripCR rawLine) = false) :
    handleLine rawLine = LineAct.skip := by
  simp only [handleLine]
  split
  · rfl
  · simp [h]

theorem procLines_filter (ls : List (List Char)) :
    ∀ m, procLines m (ls.filter (fun l => beginsWith dataMark (stripCR l))) = procLines m ls := by
  induction ls with
  | nil => intro m; rfl
  | cons l ls ih =>
    intro m
    by_cases hp : beginsWith dataMark (stripCR l) = true
    · rw [List.filter_cons_of_pos (by simpa using hp)]
      cases hact : handleLine l with
      | skip => rw [procLines_cons_skip _ _ _ hact, procLines_cons_skip _ _ _ hact, ih]
      | emit fr =>
        rw [procLines_cons_emit _ _ _ _ hact, procLines_cons_emit _ _ _ _ hact, ih]
      | sentinel => rw [procLines_cons_sent _ _ _ hact, procLines_cons_sent _ _ _ hact]
      | pushback => rw [procLines_cons_pb _ _ _ hact, procLines_cons_pb _ _ _ hact]
    · have hf : beginsWith dataMark (stripCR l) = false := by
        cases hb : beginsWith dataMark (stripCR l)
        · rfl
        · exact absurd hb hp
      rw [List.filter_cons_of_neg (by simpa using hf)]
      rw [procLines_cons_skip _ _ _ (handleLine_skip_nondata l hf), ih]

theorem runChunks_single (ls : List (List Char)) (hl : ∀ l ∈ ls, '\n' ∉ l)
    (hg : ∀ l ∈ ls, handleLine l ≠ LineAct.pushback) :
    (runChunks [joinNL ls]).1.msg = (procLines [] ls).1 ∧
    (runChunks [joinNL ls]).2 = (procLines [] ls).2.2 := by
  have hflat : ([joinNL ls] : List (List Char)).flatten = joinNL ls := by simp
  have hsp := splitNL_joinNL ls hl
  have hgood : goodLines ([joinNL ls] : List (List Char)).flatten := by
    unfold goodLines
    rw [hflat, hsp]
    exact hg
  have hspec := runChunks_spec [joinNL ls] hgood
  rw [hflat, hsp] at hspec
  exact ⟨hspec.1, hspec.2.2.1⟩

/-- Claim C1: chunk-boundary invariance.  For every finite text whose
complete lines are all well formed for the assembler, and for every way
of splitting that text into an ordered sequence of chunks, the final
assembled message after end of stream equals the one obtained when the
whole text arrives as a single chunk. -/
theorem chunk_boundary_invariance (text : List Char) (chunks : List (List Char))
    (hwf : goodLines text) (hsplit : chunks.flatten = text) :
    (runChunks chunks).1.msg = (runChunks [text]).1.msg := by
  have h1 := runChunks_spec chunks (by rw [hsplit]; exact hwf)
  have h2 := runChunks_spec [text] (by simpa using hwf)
  rw [h1.1, h2.1, hsplit]
  have he : ([text] : List (List Char)).flatten = text := by simp
  rw [he]

/-- Witness for C1: splitting the three-fragment stream at character 10
(inside the first JSON payload) yields the same final content as a single
chunk. -/
theorem chunk_boundary_invariance_witness :
    goodLines abcText ∧
      (runChunks [abcText.take 10, abcText.drop 10]).1.msg = (runChunks [abcText]).1.msg :=
  ⟨by decide, chunk_boundary_invariance abcText [abcText.take 10, abcText.drop 10]
    (by decide) (by simp)⟩

/-- Claim C2: the assembled content always equals the concatenation of the
emitted fragments in arrival order, and the A-B-C stream yields `ABC`
under every chunk grouping. -/
theorem content_is_fragment_concat :
    (∀ chunks : List (List Char), (runChunks chunks).1.msg = (runChunks chunks).2.flatten) ∧
    (∀ chunks : List (List Char), chunks.flatten = abcText →
      (runChunks chunks).1.msg = ['A', 'B', 'C']) := by
  constructor
  · intro chunks
    have := ingestAll_msg_flatten chunks asm0
    simpa [runChunks, asm0] using this
  · intro chunks h
    have hg : goodLines chunks.flatten := by rw [h]; decide
    have := runChunks_spec chunks hg
    rw [this.1, h]
    decide

/-- Witness for C2 at a two-chunk grouping of the A-B-C stream. -/
theorem content_is_fragment_concat_witness :
    (runChunks [abcText.take 7, abcText.drop 7]).1.msg =
        (runChunks [abcText.take 7, abcText.drop 7]).2.flatten ∧
      ([abcText.take 7, abcText.drop 7] : List (List Char)).flatten = abcText ∧
      (runChunks [abcText.take 7, abcText.drop 7]).1.msg = ['A', 'B', 'C'] :=
  ⟨content_is_fragment_concat.1 [abcText.take 7, abcText.drop 7], by simp,
    content_is_fragment_concat.2 [abcText.take 7, abcText.drop 7] (by simp)⟩

/-- Claim C3: split-JSON recovery.  A complete line whose payload fails to
parse is pushed back onto the buffer with its newline restored and
extraction stops; and for the concrete stream split inside the JSON
payload, no fragment is emitted after chunk 1 while the fragment `X` is
emitted exactly once after chunk 2. -/
theorem split_json_recovery :
    (∀ rawLine rest msg : List Char, '\n' ∉ rawLine →
      handleLine rawLine = LineAct.pushback →
      processBuffer ⟨rawLine ++ '\n' :: rest, msg, false⟩ =
        (⟨stripCR rawLine ++ '\n' :: rest, msg, false⟩, [])) ∧
    (runChunks [splitChunk1]).2 = [] ∧
    (runChunks [splitChunk1, splitChunk2]).1.msg = ['X'] ∧
    (runChunks [splitChunk1, splitChunk2]).2 = [['X']] := by
  refine ⟨?_, by decide, by decide, by decide⟩
  intro rawLine rest msg hnl hact
  have hmem : '\n' ∈ rawLine ++ '\n' :: rest := by simp
  rcases extract_line rawLine rest hnl with ⟨h1, h2⟩
  show processBufN ((rawLine ++ '\n' :: rest).length + 1) ⟨rawLine ++ '\n' :: rest, msg, false⟩ = _
  rw [processBufN_pb ((rawLine ++ '\n' :: rest).length) ⟨rawLine ++ '\n' :: rest, msg, false⟩
    hmem (by simpa [h1] using hact)]
  simp only [h1, h2]

/-- Witness for C3: pushback of a concrete unparsable data line. -/
theorem split_json_recovery_witness :
    '\n' ∉ oddLine ∧ handleLine oddLine = LineAct.pushback ∧
      processBuffer ⟨oddLine ++ '\n' :: ['z'], [], false⟩ =
        (⟨stripCR oddLine ++ '\n' :: ['z'], [], false⟩, []) :=
  ⟨by decide, by decide, split_json_recovery.1 oddLine ['z'] [] (by decide) (by decide)⟩

theorem handleLine_data_of_strip (rawLine p : List Char)
    (hstrip : stripCR rawLine = dataMark ++ p) :
    handleLine rawLine =
      (if trimList p = doneTok then LineAct.sentinel
       else
        match jsonParse (trimList p) with
        | none => LineAct.pushback
        | some parsed =>
          match deltaContent parsed with
          | Except.error _ => LineAct.pushback
          | Except.ok none => LineAct.skip
          | Except.ok (some v) =>
            if truthy (some v) then LineAct.emit (jsToStr v) else LineAct.skip) := by
  have hcolon : beginsWith colonMark (dataMark ++ p) = false := rfl
  have hne : trimList (dataMark ++ p) ≠ [] := trimList_cons_ne_nil 'd' _ (by decide)
  have hdata : beginsWith dataMark (dataMark ++ p) = true := beginsWith_append_self _ _
  have hdrop : (dataMark ++ p).drop 6 = p := rfl
  simp only [handleLine]
  rw [hstrip, hcolon, hdata, hdrop]
  simp only [Bool.false_or, decide_eq_true_eq, Bool.not_true, Bool.false_eq_true, if_false]
  rw [if_neg hne]

/-- Claim C5: sentinel termination.  A line whose trimmed payload is
`[DONE]` makes `handleLine` yield the sentinel action; processing a
sentinel line stops the buffer loop at once with `streamDone` set and no
fragment, leaving the remainder of the chunk unprocessed; and once the
state is done, `ingest` is the identity, so no transition leaves DONE. -/
theorem sentinel_termination :
    (∀ rawLine : List Char, beginsWith dataMark (stripCR rawLine) = true →
      trimList ((stripCR rawLine).drop 6) = doneTok →
      handleLine rawLine = LineAct.sentinel) ∧
    (∀ rawLine rest msg : List Char, '\n' ∉ rawLine →
      handleLine rawLine = LineAct.sentinel →
      processBuffer ⟨rawLine ++ '\n' :: rest, msg, false⟩ = (⟨rest, msg, true⟩, [])) ∧
    (∀ (a : Asm) (c : List Char), a.done = true → ingest a c = (a, [])) := by
  refine ⟨?_, ?_, ?_⟩
  · intro rawLine hdata hdone
    have hd := beginsWith_decomp dataMark (stripCR rawLine) hdata
    rw [handleLine_data_of_strip rawLine ((stripCR rawLine).drop 6)
      (by rw [show dataMark.length = 6 from rfl] at hd; exact hd.symm)]
    rw [if_pos hdone]
  · intro rawLine rest msg hnl hact
    have hmem : '\n' ∈ rawLine ++ '\n' :: rest := by simp
    rcases extract_line rawLine rest hnl with ⟨h1, h2⟩
    show processBufN ((rawLine ++ '\n' :: rest).length + 1)
      ⟨rawLine ++ '\n' :: rest, msg, false⟩ = _
    rw [processBufN_sent ((rawLine ++ '\n' :: rest).length) ⟨rawLine ++ '\n' :: rest, msg, false⟩
      hmem (by simpa [h1] using hact)]
    simp only [h2]
  · intro a c h
    unfold ingest
    simp [h]

/-- Witness for C5: the literal sentinel line terminates a stream whose
chunk still holds a later data line, and the done state absorbs chunks. -/
theorem sentinel_termination_witness :
    handleLine sentLine = LineAct.sentinel ∧
      processBuffer ⟨sentLine ++ '\n' :: (lineFragA ++ ['\n']), [], false⟩ =
        (⟨lineFragA ++ ['\n'], [], true⟩, []) ∧
      ingest ⟨lineFragA ++ ['\n'], ['A'], true⟩ lineFragB = (⟨lineFragA ++ ['\n'], ['A'], true⟩, []) :=
  ⟨sentinel_termination.1 sentLine (by decide) (by decide),
    sentinel_termination.2.1 sentLine (lineFragA ++ ['\n']) [] (by decide)
      (sentinel_termination.1 sentLine (by decide) (by decide)),
    sentinel_termination.2.2 ⟨lineFragA ++ ['\n'], ['A'], true⟩ lineFragB rfl⟩

/-- Claim C7: comment and blank tolerance.  Every line that does not carry
the data marker (after CR stripping) is skipped, and inserting or removing
any such lines from a well-formed stream leaves the final assembled
content unchanged. -/
theorem comment_blank_tolerance :
    (∀ rawLine : List Char, beginsWith dataMark (stripCR rawLine) = false →
      handleLine rawLine = LineAct.skip) ∧
    (∀ ls ls2 : List (List Char), (∀ l ∈ ls, '\n' ∉ l) → (∀ l ∈ ls2, '\n' ∉ l) →
      (∀ l ∈ ls, handleLine l ≠ LineAct.pushback) →
      ls2.filter (fun l => beginsWith dataMark (stripCR l)) =
        ls.filter (fun l => beginsWith dataMark (stripCR l)) →
      (runChunks [joinNL ls2]).1.msg = (runChunks [joinNL ls]).1.msg) := by
  refine ⟨handleLine_skip_nondata, ?_⟩
  intro ls ls2 h1 h2 hg hfe
  have hg2 : ∀ l ∈ ls2, handleLine l ≠ LineAct.pushback := by
    intro l hl
    by_cases hp : beginsWith dataMark (stripCR l) = true
    · have hmem : l ∈ ls2.filter (fun l => beginsWith dataMark (stripCR l)) :=
        List.mem_filter.mpr ⟨hl, by simpa using hp⟩
      rw [hfe] at hmem
      exact hg l (List.mem_filter.mp hmem).1
    · have hf : beginsWith dataMark (stripCR l) = false := by simpa using hp
      rw [handleLine_skip_nondata l hf]
      simp
  rw [(runChunks_single ls2 h2 hg2).1, (runChunks_single ls h1 hg).1]
  rw [← procLines_filter ls2 [], hfe, procLines_filter ls []]

/-- Witness for C7: a keep-alive comment and a blank line interleaved
between the A and B data lines do not change the assembled content. -/
theorem comment_blank_tolerance_witness :
    (runChunks [joinNL [lineFragA, [':', 'k'], [], lineFragB]]).1.msg =
      (runChunks [joinNL [lineFragA, lineFragB]]).1.msg :=
  comment_blank_tolerance.2 [lineFragA, lineFragB] [lineFragA, [':', 'k'], [], lineFragB]
    (by decide) (by decide) (by decide) (by decide)

/-- Claim C8: a stream ending while an unterminated line is buffered
discards that text silently: the final content and emitted fragments are
those of the stream without the partial line, under any chunking of the
full text. -/
theorem malformed_eof_silent (ls : List (List Char)) (p : List Char)
    (chunks : List (List Char))
    (hls : ∀ l ∈ ls, '\n' ∉ l) (hg : ∀ l ∈ ls, handleLine l ≠ LineAct.pushback)
    (hp : '\n' ∉ p) (hsplit : chunks.flatten = joinNL ls ++ p) :
    (runChunks chunks).1.msg = (runChunks [joinNL ls]).1.msg ∧
    (runChunks chunks).2 = (runChunks [joinNL ls]).2 := by
  have hsp : splitNL (joinNL ls ++ p) = (ls, p) := by
    rw [splitNL_join ls p hls, splitNL_noNL p hp]
    simp
  have hgood : goodLines chunks.flatten := by
    unfold goodLines
    rw [hsplit, hsp]
    exact hg
  have hrs := runChunks_spec chunks hgood
  rw [hsplit, hsp] at hrs
  rcases runChunks_single ls hls hg with ⟨h2, h3⟩
  exact ⟨by rw [hrs.1, h2], by rw [hrs.2.2.1, h3]⟩

/-- Witness for C8: the A-line stream followed by a dangling partial line
assembles the same content as the A-line stream alone. -/
theorem malformed_eof_silent_witness :
    (runChunks [joinNL [lineFragA] ++ splitChunk1]).1.msg =
        (runChunks [joinNL [lineFragA]]).1.msg ∧
      (runChunks [joinNL [lineFragA] ++ splitChunk1]).2 = (runChunks [joinNL [lineFragA]]).2 :=
  malformed_eof_silent [lineFragA] splitChunk1 [joinNL [lineFragA] ++ splitChunk1]
    (by decide) (by decide) (by decide) (by simp)

/-- Counterexample to C6 as stated: the payload whose `content` is the
boolean `true` is present and not a string, yet the assembler emits the
fragment `true` (JS string conversion) and the assembled content changes. -/
theorem nonstring_content_emits :
    (runChunks [dataMark ++ truePayload ++ ['\n']]).2 = [['t', 'r', 'u', 'e']] ∧
      (runChunks [dataMark ++ truePayload ++ ['\n']]).1.msg = ['t', 'r', 'u', 'e'] := by
  constructor <;> decide

/-- Claim C6 as amended: for a data line whose payload parses as JSON and
whose extracted `choices[0].delta.content` is absent or falsy (or whose
extraction throws, as for the `null` payload), the assembler emits no
fragment for that line and leaves the assembled content unchanged. -/
theorem falsy_content_no_fragment (p msg : List Char) (j : Json)
    (hn : '\n' ∉ p) (hr : '\r' ∉ p)
    (hparse : jsonParse p = some j)
    (hfalsy : ∀ c, deltaContent j = Except.ok c → truthy c = false) :
    (processBuffer ⟨(dataMark ++ p) ++ '\n' :: [], msg, false⟩).1.msg = msg ∧
    (processBuffer ⟨(dataMark ++ p) ++ '\n' :: [], msg, false⟩).2 = [] := by
  have hlnl : '\n' ∉ dataMark ++ p := by
    intro hm
    rcases List.mem_append.mp hm with h | h
    · revert h; decide
    · exact hn h
  have hcr : '\r' ∉ dataMark ++ p := by
    intro hm
    rcases List.mem_append.mp hm with h | h
    · revert h; decide
    · exact hr h
  have hline := handleLine_data_of_strip (dataMark ++ p) p (stripCR_eq_self _ hcr)
  have hnd : trimList p ≠ doneTok := by
    intro he
    have hnone : jsonParse p = none := by
      rw [← jsonParse_trim p, he]
      rfl
    rw [hparse] at hnone
    cases hnone
  rw [if_neg hnd] at hline
  have hjp : jsonParse (trimList p) = some j := by rw [jsonParse_trim]; exact hparse
  simp only [hjp] at hline
  cases hdc : deltaContent j with
  | error e =>
    simp only [hdc] at hline
    have hmem : '\n' ∈ (dataMark ++ p) ++ '\n' :: ([] : List Char) := by simp
    rcases extract_line (dataMark ++ p) [] hlnl with ⟨h1, h2⟩
    have hact2 : handleLine (((dataMark ++ p) ++ '\n' :: []).takeWhile notNL) =
        LineAct.pushback := by
      rw [h1]
      exact hline
    have hres : processBuffer ⟨(dataMark ++ p) ++ '\n' :: [], msg, false⟩ =
        (⟨stripCR (dataMark ++ p) ++ '\n' :: [], msg, false⟩, []) := by
      show processBufN _ _ = _
      rw [processBufN_pb (((dataMark ++ p) ++ '\n' :: []).length)
        ⟨(dataMark ++ p) ++ '\n' :: [], msg, false⟩ hmem hact2]
      simp only [h1, h2]
    rw [hres]
    exact ⟨rfl, rfl⟩
  | ok c =>
    have hft := hfalsy c hdc
    simp only [hdc] at hline
    have hskip : handleLine (dataMark ++ p) = LineAct.skip := by
      cases c with
      | none => exact hline.trans rfl
      | some v =>
        rw [hline]
        show (if truthy (some v) = true then LineAct.emit (jsToStr v) else LineAct.skip) =
          LineAct.skip
        rw [hft]
        simp
    have hspl : (splitNL ((dataMark ++ p) ++ '\n' :: [])).1 = [dataMark ++ p] := by
      rw [splitNL_cons_line _ _ hlnl]
      rfl
    have hgood : ∀ l ∈ (splitNL ((dataMark ++ p) ++ '\n' :: [])).1,
        handleLine l ≠ LineAct.pushback := by
      rw [hspl]
      intro l hl
      rcases List.mem_singleton.mp hl with rfl
      rw [hskip]
      simp
    have hspec := processBuffer_spec ⟨(dataMark ++ p) ++ '\n' :: [], msg, false⟩ rfl hgood
    rw [hspl] at hspec
    rw [procLines_cons_skip _ _ _ hskip] at hspec
    exact ⟨hspec.1, hspec.2.2.1⟩

/-- Witness for C6 at the empty-delta payload: zero fragments and
unchanged content. -/
theorem falsy_content_no_fragment_witness :
    jsonParse emptyDeltaPayload = some emptyDeltaJson ∧
      (processBuffer ⟨(dataMark ++ emptyDeltaPayload) ++ '\n' :: [], ['Z'], false⟩).1.msg =
        ['Z'] ∧
      (processBuffer ⟨(dataMark ++ emptyDeltaPayload) ++ '\n' :: [], ['Z'], false⟩).2 = [] := by
  refine ⟨rfl, ?_, ?_⟩
  · exact (falsy_content_no_fragment emptyDeltaPayload ['Z'] emptyDeltaJson (by decide)
      (by decide) rfl (by intro c h; cases h; rfl)).1
  · exact (falsy_content_no_fragment emptyDeltaPayload ['Z'] emptyDeltaJson (by decide)
      (by decide) rfl (by intro c h; cases h; rfl)).2

/-- Counterexample to C4 as stated: on the trace that delivers the
fragment `A` and then throws, the accumulated content is `A`, yet the
final message list holds only the user message — the partial assistant
message is removed by the catch handler, not kept. -/
theorem midstream_error_discards_content :
    (streamLoop asm0 errReads).1.msg = ['A'] ∧
      (sendMessage [] hiInput true (some errReads) true).messages =
        [⟨Role.user, hiInput⟩] ∧
      ∀ m ∈ (sendMessage [] hiInput true (some errReads) true).messages,
        m.role ≠ Role.assistant := by
  refine ⟨by decide, by decide, by decide⟩

/-- Claim C4 as amended: when a read throws after streaming started,
processing stops and the error is surfaced, but the accumulated content is
not kept: the catch handler removes the last message (the partial
assistant message), leaving only the prior messages and the user message,
and no database insert occurs. -/
theorem midstream_error_rolls_back (prior : List Msg) (inp : List Char) (reads : List ReadEv)
    (userKnown : Bool) (hin : trimList inp ≠ [])
    (herr : (streamLoop asm0 reads).2 = true) :
    sendMessage prior inp true (some reads) userKnown =
      ⟨prior ++ [⟨Role.user, inp⟩], true, none⟩ := by
  unfold sendMessage
  rw [if_neg hin]
  rcases hsl : streamLoop asm0 reads with ⟨a, threw⟩
  rw [hsl] at herr
  simp only at herr
  simp [hsl, herr]

/-- Witness for C4 at the concrete throwing trace. -/
theorem midstream_error_rolls_back_witness :
    trimList hiInput ≠ [] ∧ (streamLoop asm0 errReads).2 = true ∧
      sendMessage [] hiInput true (some errReads) true =
        ⟨[⟨Role.user, hiInput⟩], true, none⟩ :=
  ⟨by decide, by decide,
    by simpa using midstream_error_rolls_back [] hiInput errReads true (by decide) (by decide)⟩

/-- Claim C10: the chat turn is persisted only when the streaming loop
completes without throwing: a failed or non-success request inserts
nothing, a throwing read inserts nothing, and any insert implies the
fetch succeeded and the loop finished without an exception. -/
theorem persist_requires_clean_loop (prior : List Msg) (inp : List Char) (tok : Bool)
    (fetched : Option (List ReadEv)) (userKnown : Bool) :
    (sendMessage prior inp tok none userKnown).inserted = none ∧
    (∀ reads, (streamLoop asm0 reads).2 = true →
      (sendMessage prior inp tok (some reads) userKnown).inserted = none) ∧
    ((sendMessage prior inp tok fetched userKnown).inserted ≠ none →
      ∃ reads, fetched = some reads ∧ (streamLoop asm0 reads).2 = false) := by
  refine ⟨?_, ?_, ?_⟩
  · by_cases h1 : trimList inp = []
    · simp [sendMessage, h1]
    · by_cases h2 : tok
      · simp [sendMessage, h1, h2]
      · simp [sendMessage, h1, h2]
  · intro reads herr
    by_cases h1 : trimList inp = []
    · simp [sendMessage, h1]
    · by_cases h2 : tok
      · rcases hsl : streamLoop asm0 reads with ⟨a, threw⟩
        rw [hsl] at herr
        simp only at herr
        simp [sendMessage, h1, h2, hsl, herr]
      · simp [sendMessage, h1, h2]
  · intro hne
    by_cases h1 : trimList inp = []
    · rw [show sendMessage prior inp tok fetched userKnown =
        (⟨prior, false, none⟩ : SendOut) from by simp [sendMessage, h1]] at hne
      exact absurd rfl hne
    · by_cases h2 : tok
      · cases fetched with
        | none =>
          rw [show sendMessage prior inp tok none userKnown =
            (⟨(prior ++ [(⟨Role.user, inp⟩ : Msg)]).dropLast, true, none⟩ : SendOut) from by
              simp [sendMessage, h1, h2]] at hne
          exact absurd rfl hne
        | some reads =>
          rcases hsl : streamLoop asm0 reads with ⟨a, threw⟩
          cases threw with
          | true =>
            rw [show sendMessage prior inp tok (some reads) userKnown =
              (⟨prior ++ [(⟨Role.user, inp⟩ : Msg)], true, none⟩ : SendOut) from by
                simp [sendMessage, h1, h2, hsl]] at hne
            exact absurd rfl hne
          | false => exact ⟨reads, rfl, by rw [hsl]⟩
      · rw [show sendMessage prior inp tok fetched userKnown =
          ⟨prior ++ [⟨Role.user, inp⟩], true, none⟩ from by simp [sendMessage, h1, h2]] at hne
        exact absurd rfl hne

/-- Witness for C10: no insert on a failed fetch, no insert on a throwing
trace, and a clean trace with a known user does insert and indeed had a
clean loop. -/
theorem persist_requires_clean_loop_witness :
    (sendMessage [] hiInput true none true).inserted = none ∧
      (streamLoop asm0 errReads).2 = true ∧
      (sendMessage [] hiInput true (some errReads) true).inserted = none ∧
      ((sendMessage [] hiInput true (some [ReadEv.fin]) true).inserted ≠ none →
        ∃ reads, (some [ReadEv.fin] : Option (List ReadEv)) = some reads ∧
          (streamLoop asm0 reads).2 = false) :=
  ⟨(persist_requires_clean_loop [] hiInput true none true).1, by decide,
    (persist_requires_clean_loop [] hiInput true none true).2.1 errReads (by decide),
    (persist_requires_clean_loop [] hiInput true (some [ReadEv.fin]) true).2.2⟩

theorem splitAllNL_line (l t : List Char) (h : '\n' ∉ l) :
    splitAllNL (l ++ '\n' :: t) = l :: splitAllNL t := by
  induction l with
  | nil => simp [splitAllNL]
  | cons c cs ih =>
    have hc : ¬(c = '\n') := fun hc => h (by simp [hc])
    have hcs : '\n' ∉ cs := fun hm => h (List.mem_cons_of_mem _ hm)
    simp only [List.cons_append, splitAllNL, if_neg hc]
    rw [show cs.append ('\n' :: t) = cs ++ '\n' :: t from rfl, ih hcs]

theorem splitAllNL_joinNL (ls : List (List Char)) (h : ∀ l ∈ ls, '\n' ∉ l) :
    splitAllNL (joinNL ls) = ls ++ [[]] := by
  induction ls with
  | nil => simp [joinNL, splitAllNL]
  | cons l ls ih =>
    have hl : '\n' ∉ l := h l (by simp)
    have hls : ∀ x ∈ ls, '\n' ∉ x := fun x hx => h x (List.mem_cons_of_mem _ hx)
    have hj : joinNL (l :: ls) = l ++ '\n' :: joinNL ls := by simp [joinNL]
    rw [hj, splitAllNL_line _ _ hl, ih hls]
    rfl

theorem naiveLine_nil (m : List Char) : naiveLine m [] = m := rfl

theorem naiveRun_join (cls : List (List (List Char)))
    (h : ∀ cl ∈ cls, ∀ l ∈ cl, '\n' ∉ l) :
    naiveRun (cls.map joinNL) = cls.flatten.foldl naiveLine [] := by
  suffices hgen : ∀ m, (cls.map joinNL).foldl (fun m c => (splitAllNL c).foldl naiveLine m) m =
      cls.flatten.foldl naiveLine m by
    exact hgen []
  induction cls with
  | nil => intro m; rfl
  | cons cl cls ih =>
    intro m
    have hcl : ∀ l ∈ cl, '\n' ∉ l := h cl (by simp)
    have hcls : ∀ c ∈ cls, ∀ l ∈ c, '\n' ∉ l := fun c hc => h c (List.mem_cons_of_mem _ hc)
    simp only [List.map_cons, List.foldl_cons, List.flatten_cons, List.foldl_append]
    rw [splitAllNL_joinNL cl hcl]
    rw [List.foldl_append]
    simp only [List.foldl_cons, List.foldl_nil, naiveLine_nil]
    exact ih hcls _

theorem joinNL_flatten (cls : List (List (List Char))) :
    (cls.map joinNL).flatten = joinNL cls.flatten := by
  induction cls with
  | nil => rfl
  | cons cl cls ih =>
    simp only [List.map_cons, List.flatten_cons, ih, joinNL_append]

theorem foldl_naive_nondata (ls : List (List Char)) :
    ∀ m, (∀ x ∈ ls, beginsWith dataMark x = false) → ls.foldl naiveLine m = m := by
  induction ls with
  | nil => intro m _; rfl
  | cons l ls ih =>
    intro m h
    have hl : beginsWith dataMark l = false := h l (by simp)
    have hls : ∀ x ∈ ls, beginsWith dataMark x = false :=
      fun x hx => h x (List.mem_cons_of_mem _ hx)
    simp only [List.foldl_cons]
    rw [show naiveLine m l = m from by simp [naiveLine, hl], ih m hls]

theorem naiveDelta_obj (fs : List (List Char × Json)) :
    naiveDelta (Json.obj fs) =
      (match lookupF fs chK with
       | none => Except.error ()
       | some Json.null => Except.error ()
       | some x =>
         Except.ok (optChain (optChain (idx0 x) (fun d => getProp d dlK))
           (fun d => getProp d ctK))) := rfl

theorem deltaContent_obj (fs : List (List Char × Json)) :
    deltaContent (Json.obj fs) =
      Except.ok (optChain (optChain (optChain (lookupF fs chK) idx0)
        (fun d => getProp d dlK)) (fun d => getProp d ctK)) := rfl

theorem naiveDelta_vs (j : Json) (hnn : jnotNull j = true) :
    naiveDelta j = deltaContent j ∨
      (naiveDelta j = Except.error () ∧ deltaContent j = Except.ok none) := by
  cases j with
  | null => cases hnn
  | bool b => right; exact ⟨rfl, rfl⟩
  | num n => right; exact ⟨rfl, rfl⟩
  | str s => right; exact ⟨rfl, rfl⟩
  | arr xs => right; exact ⟨rfl, rfl⟩
  | obj fs =>
    rcases hc : lookupF fs chK with _ | x
    · right
      rw [naiveDelta_obj, deltaContent_obj, hc]
      exact ⟨rfl, rfl⟩
    · cases x with
      | null =>
        right
        rw [naiveDelta_obj, deltaContent_obj, hc]
        exact ⟨rfl, rfl⟩
      | bool b => left; rw [naiveDelta_obj, deltaContent_obj, hc]; rfl
      | num n => left; rw [naiveDelta_obj, deltaContent_obj, hc]; rfl
      | str s => left; rw [naiveDelta_obj, deltaContent_obj, hc]; rfl
      | arr xs => left; rw [naiveDelta_obj, deltaContent_obj, hc]; rfl
      | obj fs2 => left; rw [naiveDelta_obj, deltaContent_obj, hc]; rfl

theorem naiveLine_data (l : List Char) (j : Json) (hd : beginsWith dataMark l = true)
    (hd6 : l.drop 6 ≠ doneTok) (hjp : jsonParse (l.drop 6) = some j) :
    ∀ m : List Char, naiveLine m l =
      (match naiveDelta j with
       | Except.error _ => m
       | Except.ok c => if truthy c then m ++ jsToStr (c.getD Json.null) else m) := by
  intro m
  simp only [naiveLine, hd, if_true, if_neg hd6, hjp]

theorem lineOK_cases (l : List Char) (hr : '\r' ∉ l) (hd : beginsWith dataMark l = true)
    (hns : l ≠ sentLine) (hok : lineOK l = true) :
    (handleLine l = LineAct.skip ∧ ∀ m : List Char, naiveLine m l = m) ∨
    (∃ s, handleLine l = LineAct.emit s ∧ ∀ m : List Char, naiveLine m l = m ++ s) := by
  have hok2 : (match jsonParse (l.drop 6) with
      | some j => jnotNull j && contentStrOK j
      | none => false) = true := by
    simpa [lineOK, hd, hns] using hok
  rcases hjp : jsonParse (l.drop 6) with _ | j
  · simp only [hjp] at hok2
    cases hok2
  · simp only [hjp, Bool.and_eq_true] at hok2
    obtain ⟨hnn, hcs⟩ := hok2
    have hdecomp : dataMark ++ l.drop 6 = l := beginsWith_decomp dataMark l hd
    have hline := handleLine_data_of_strip l (l.drop 6)
      (by rw [stripCR_eq_self l hr]; exact hdecomp.symm)
    have hd6 : l.drop 6 ≠ doneTok := by
      intro he
      rw [he, show jsonParse doneTok = none from rfl] at hjp
      cases hjp
    have hnd2 : trimList (l.drop 6) ≠ doneTok := by
      intro he
      have h0 : jsonParse (l.drop 6) = none := by rw [← jsonParse_trim, he]; rfl
      rw [hjp] at h0
      cases h0
    rw [if_neg hnd2] at hline
    have hjpt : jsonParse (trimList (l.drop 6)) = some j := by rw [jsonParse_trim]; exact hjp
    simp only [hjpt] at hline
    have hnaive := naiveLine_data l j hd hd6 hjp
    cases hdc : deltaContent j with
    | error e =>
      simp only [contentStrOK, hdc] at hcs
      cases hcs
    | ok c =>
      rcases naiveDelta_vs j hnn with hv | ⟨hv1, hv2⟩
      · cases c with
        | none =>
          left
          refine ⟨?_, ?_⟩
          · simp only [hdc] at hline
            exact hline.trans rfl
          · intro m
            rw [hnaive m, hv, hdc]
            rfl
        | some v =>
          cases v with
          | str s =>
            cases s with
            | nil =>
              left
              refine ⟨?_, ?_⟩
              · simp only [hdc] at hline
                exact hline.trans rfl
              · intro m
                rw [hnaive m, hv, hdc]
                rfl
            | cons c0 s0 =>
              right
              refine ⟨c0 :: s0, ?_, ?_⟩
              · simp only [hdc] at hline
                exact hline.trans rfl
              · intro m
                rw [hnaive m, hv, hdc]
                rfl
          | null =>
            simp only [contentStrOK, hdc] at hcs
            cases hcs
          | bool b =>
            simp only [contentStrOK, hdc] at hcs
            cases hcs
          | num n =>
            simp only [contentStrOK, hdc] at hcs
            cases hcs
          | arr xs =>
            simp only [contentStrOK, hdc] at hcs
            cases hcs
          | obj fs =>
            simp only [contentStrOK, hdc] at hcs
            cases hcs
      · have hcn : (Except.ok c : Except Unit (Option Json)) = Except.ok none :=
          hdc.symm.trans hv2
        injection hcn with hcn2
        subst hcn2
        left
        refine ⟨?_, ?_⟩
        · simp only [hdc] at hline
          exact hline.trans rfl
        · intro m
          rw [hnaive m, hv1]

theorem lineOK_good (l : List Char) (hr : '\r' ∉ l) (hok : lineOK l = true) :
    handleLine l ≠ LineAct.pushback := by
  by_cases hd : beginsWith dataMark l = true
  · by_cases hs : l = sentLine
    · subst hs
      rw [show handleLine sentLine = LineAct.sentinel from by decide]
      simp
    · rcases lineOK_cases l hr hd hs hok with ⟨h1, _⟩ | ⟨s, h1, _⟩ <;> rw [h1] <;> simp
  · rw [handleLine_skip_nondata l (by rw [stripCR_eq_self l hr]; simpa using hd)]
    simp

theorem procLines_eq_naive (ls : List (List Char)) :
    ∀ m, (∀ l ∈ ls, '\n' ∉ l ∧ '\r' ∉ l ∧ lineOK l = true) →
      noDataAfterSent ls = true →
      (procLines m ls).1 = ls.foldl naiveLine m := by
  induction ls with
  | nil => intro m _ _; rfl
  | cons l ls ih =>
    intro m hall hsent
    obtain ⟨hn, hr, hok⟩ := hall l (by simp)
    have hallt : ∀ x ∈ ls, '\n' ∉ x ∧ '\r' ∉ x ∧ lineOK x = true :=
      fun x hx => hall x (List.mem_cons_of_mem _ hx)
    have hsent2 : ((if l = sentLine then ls.all (fun x => ! beginsWith dataMark x)
        else true) && noDataAfterSent ls) = true := by
      simpa [noDataAfterSent] using hsent
    rw [Bool.and_eq_true] at hsent2
    have hsentt : noDataAfterSent ls = true := hsent2.2
    by_cases hd : beginsWith dataMark l = true
    · by_cases hs : l = sentLine
      · subst hs
        rw [procLines_cons_sent _ _ _ (by decide)]
        simp only [List.foldl_cons]
        rw [show naiveLine m sentLine = m from rfl]
        have hnd : ∀ x ∈ ls, beginsWith dataMark x = false := by
          rw [if_pos rfl] at hsent2
          intro x hx
          have := List.all_eq_true.mp hsent2.1 x hx
          simpa using this
        exact (foldl_naive_nondata ls m hnd).symm
      · rcases lineOK_cases l hr hd hs hok with ⟨h1, h2⟩ | ⟨s, h1, h2⟩
        · rw [procLines_cons_skip _ _ _ h1]
          simp only [List.foldl_cons]
          rw [h2 m]
          exact ih m hallt hsentt
        · rw [procLines_cons_emit _ _ _ _ h1]
          simp only [List.foldl_cons]
          rw [h2 m]
          exact ih (m ++ s) hallt hsentt
    · have hdf : beginsWith dataMark l = false := by simpa using hd
      have hskip : handleLine l = LineAct.skip :=
        handleLine_skip_nondata l (by rw [stripCR_eq_self l hr]; exact hdf)
      rw [procLines_cons_skip _ _ _ hskip]
      simp only [List.foldl_cons]
      rw [show naiveLine m l = m from by simp [naiveLine, hdf]]
      exact ih m hallt hsentt

/-- Claim C9 as amended: for every stream delivered in whole-line chunks
(lines free of embedded newlines and carriage returns) in which every
data payload parses as non-null JSON whose content field is absent or a
string, and in which no data line follows an exact `data: [DONE]`
sentinel, the naive per-chunk parser of AvatarCustomizer and the buffered
assembler of ChatInterface produce the same final assembled content. -/
theorem naive_matches_buffered (chunkLines : List (List (List Char)))
    (hl : ∀ cl ∈ chunkLines, ∀ l ∈ cl, '\n' ∉ l ∧ '\r' ∉ l ∧ lineOK l = true)
    (hsent : noDataAfterSent chunkLines.flatten = true) :
    naiveRun (chunkLines.map joinNL) = (runChunks (chunkLines.map joinNL)).1.msg := by
  have hall : ∀ l ∈ chunkLines.flatten, '\n' ∉ l ∧ '\r' ∉ l ∧ lineOK l = true := by
    intro l hlm
    rcases List.mem_flatten.mp hlm with ⟨cl, hcl, hl2⟩
    exact hl cl hcl l hl2
  have hnn : ∀ l ∈ chunkLines.flatten, '\n' ∉ l := fun l h => (hall l h).1
  have hgood : ∀ l ∈ chunkLines.flatten, handleLine l ≠ LineAct.pushback :=
    fun l h => lineOK_good l (hall l h).2.1 (hall l h).2.2
  have hjoin : (chunkLines.map joinNL).flatten = joinNL chunkLines.flatten :=
    joinNL_flatten chunkLines
  have hgl : goodLines (chunkLines.map joinNL).flatten := by
    unfold goodLines
    rw [hjoin, splitNL_joinNL _ hnn]
    exact hgood
  have hspec := runChunks_spec (chunkLines.map joinNL) hgl
  rw [hjoin, splitNL_joinNL _ hnn] at hspec
  rw [hspec.1, procLines_eq_naive chunkLines.flatten [] hall hsent]
  exact naiveRun_join chunkLines (fun cl hcl l h2 => (hl cl hcl l h2).1)

/-- Witness for C9: a two-chunk whole-line stream carrying the fragments
A and B, a keep-alive comment, and a final sentinel. -/
theorem naive_matches_buffered_witness :
    naiveRun ([[lineFragA, [':', 'k']], [lineFragB, sentLine]].map joinNL) =
      (runChunks ([[lineFragA, [':', 'k']], [lineFragB, sentLine]].map joinNL)).1.msg :=
  naive_matches_buffered [[lineFragA, [':', 'k']], [lineFragB, sentLine]]
    (by decide) (by decide)

/-- Counterexample to C9 as stated: a whole-line stream whose first data
payload is the JSON literal `null` (so its content field is absent) makes
the buffered assembler push back and stall, while the naive parser skips
the line; the two parsers disagree on the final content. -/
theorem naive_buffered_differ :
    naiveRun [nullThenA] = ['A'] ∧ (runChunks [nullThenA]).1.msg = [] ∧
      naiveRun [nullThenA] ≠ (runChunks [nullThenA]).1.msg := by
  refine ⟨by decide, by decide, by decide⟩
